import Mathlib

set_option maxHeartbeats 1000000

/-!
Verification development for darktable's `src/common/metadata.c` metadata
mutation engine.

Snapshots are modelled exactly as in the C code: a flat `List String` of
alternating key/value cells (the GList the code walks two nodes at a time).
Keys are the decimal renderings of the integer key ids (the code produces
them with `g_strdup_printf("%d", keyid)` and reads them back with `atoi`,
so string keys and integer keys are in canonical bijection on this data).
The per-image `main.meta_data` table is modelled as a `List (String ×
String)` of (key, value) rows; `DELETE ... WHERE key IN (...)` is a filter
by key and `INSERT ... VALUES (...)` appends the rows.

Cases in which the C code would dereference past the end of an odd-length
(unpaired) list are undefined behaviour in the source; the model gives
those clauses a harmless value and every theorem that touches them carries
the `Chunked` (even length) hypothesis.
-/

/-- Snapshot pairing invariant: a flat metadata list is well formed when it
has even length, i.e. it decomposes into (key, value) cells. -/
def Chunked (l : List String) : Prop := l.length % 2 = 0

instance (l : List String) : Decidable (Chunked l) := by
  unfold Chunked
  infer_instance

/-- Spec-side view of a snapshot: group a flat key/value list into
(key, value) pairs. A trailing unpaired key is dropped; that case never
arises on `Chunked` lists. -/
def toPairs : List String → List (String × String)
  | k :: v :: rest => (k, v) :: toPairs rest
  | _ => []

/-- First-match association lookup on a paired snapshot: the value of the
first pair carrying the given key. -/
def lookupVal : List (String × String) → String → Option String
  | [], _ => none
  | p :: rest, k => if p.1 = k then some p.2 else lookupVal rest k

/-- The keys of a flat snapshot, in order. -/
def keysOf (l : List String) : List String := (toPairs l).map Prod.fst

/-- A paired snapshot whose keys are pairwise distinct. -/
def NodupKeys (ps : List (String × String)) : Prop := (ps.map Prod.fst).Nodup

instance (ps : List (String × String)) : Decidable (NodupKeys ps) := by
  unfold NodupKeys
  infer_instance

/-- Model of `_list_find_custom`: scan the flat key/value list at even (key)
positions only (the C loop advances the iterator twice per round) and return
the suffix starting at the first key equal to `key` (the C returns the
matching GList node), or `none` when no key matches. -/
def listFindCustom : List String → String → Option (List String)
  | [], _ => none
  | [k], key => if k = key then some [k] else none
  | k :: v :: rest, key =>
    if k = key then some (k :: v :: rest) else listFindCustom rest key

/-- Model of `_get_tb_removed_metadata_string_values`: walk `before` one
(key, value) cell at a time and mark the key for removal when no matching
key exists in `after`, or the first matching value differs, or the `before`
value is the empty string. The C renders the marked keys as a comma
separated `atoi` list for the SQL `IN` clause; the model returns the list
of marked keys. -/
def getTbRemoved : List String → List String → List String
  | [], _ => []
  | [_], _ => []
  | k :: v :: rest, after =>
    if (listFindCustom after k).isNone
        || (match listFindCustom after k with
            | some (_ :: v2 :: _) => v2 != v
            | _ => false)
        || (v == "") then
      k :: getTbRemoved rest after
    else
      getTbRemoved rest after

/-- Model of `_get_tb_added_metadata_string_values`: walk `after` one
(key, value) cell at a time and emit an insertion row `(imgid, key, value)`
when the value is non-empty and the key is absent from `before` or its
first matching value differs. (SQL `%q` escaping is a persistence-boundary
encoding and stores the same value, so the model carries the value
unchanged.) -/
def getTbAdded (imgid : Int) : List String → List String → List (Int × String × String)
  | _, [] => []
  | _, [_] => []
  | before, k :: v :: rest =>
    if ((listFindCustom before k).isNone
        || (match listFindCustom before k with
            | some (_ :: v2 :: _) => v2 != v
            | _ => false))
        && (v != "") then
      (imgid, k, v) :: getTbAdded imgid before rest
    else
      getTbAdded imgid before rest

/-- Model of `_bulk_remove_metadata`: `DELETE FROM main.meta_data WHERE id =
imgid AND key IN (list)` on the image's rows, i.e. drop every row whose key
is in the removal list (a no-op for an empty list, matching the NULL-list
guard in the C). -/
def dbRemoveKeys (state : List (String × String)) (removed : List String) :
    List (String × String) :=
  state.filter (fun row => !(removed.contains row.1))

/-- Model of `_bulk_add_metadata`: `INSERT INTO main.meta_data (id, key,
value) VALUES ...` appends the emitted rows of this image to its row set. -/
def dbAddRows (state : List (String × String)) (added : List (Int × String × String)) :
    List (String × String) :=
  state ++ added.map (fun t => (t.2.1, t.2.2))

/-- Model of `_pop_undo_execute`: compute the diff of `before` and `after`
and persist it against the image's current row set (removals first, then
insertions). -/
def popUndoExecute (imgid : Int) (state : List (String × String))
    (before after : List String) : List (String × String) :=
  dbAddRows (dbRemoveKeys state (getTbRemoved before after))
    (getTbAdded imgid before after)

/-- Model of `dt_undo_metadata_t`: one undo entry, the image id together
with its before and after snapshots. -/
structure UndoMetadata where
  imgid : Int
  before : List String
  after : List String
deriving DecidableEq, Repr

/-- The replay direction flag of the undo stack (`DT_ACTION_UNDO` /
`DT_ACTION_REDO`). -/
inductive UndoAction
  | undo
  | redo
deriving DecidableEq

/-- Model of the per-entry body of `_pop_undo`: on `undo` the diff runs with
the entry's snapshots swapped, on `redo` unswapped (the C loops this over
every entry of the undo group). -/
def popUndoEntry (action : UndoAction) (e : UndoMetadata)
    (state : List (String × String)) : List (String × String) :=
  popUndoExecute e.imgid state
    (match action with | .undo => e.after | .redo => e.before)
    (match action with | .undo => e.before | .redo => e.after)

/-- Model of reading `main.meta_data` rows back as a snapshot
(`dt_metadata_get_list_id`): each row contributes its key cell and then its
value cell. -/
def stateToSnapshot : List (String × String) → List String
  | [] => []
  | (k, v) :: rest => k :: v :: stateToSnapshot rest

/-- In-place value replacement used by `_metadata_add_metadata_to_list` when
the key is already present: the first key cell equal to `key` keeps its key
and has the following value cell overwritten. -/
def replaceValue : List String → String → String → List String
  | [], _, _ => []
  | [k], _, _ => [k]
  | k :: v :: rest, key, newv =>
    if k = key then k :: newv :: rest else k :: v :: replaceValue rest key newv

/-- Model of `_metadata_add_metadata_to_list` (the MergeAdd semantics): walk
the payload one (key, value) cell at a time; a key already in the list with
a different value is overwritten in place, an absent key is appended with
its value at the end, and a key present with the same value leaves the list
untouched. -/
def addMetadataToList : List String → List String → List String
  | list, [] => list
  | list, [_] => list
  | list, k :: v :: rest =>
    if (listFindCustom list k).isSome
        && (match listFindCustom list k with
            | some (_ :: v2 :: _) => v2 != v
            | _ => false) then
      addMetadataToList (replaceValue list k v) rest
    else if (listFindCustom list k).isNone then
      addMetadataToList (list ++ [k, v]) rest
    else
      addMetadataToList list rest

/-- One removal round of `_metadata_remove_metadata_from_list`: find the
first (even-position) key cell equal to `key` and unlink it together with
its value cell; when the key is absent the list is unchanged (the C guards
the unlink with the find result). -/
def removeOnce : List String → String → List String
  | [], _ => []
  | [k], key => if k = key then [] else [k]
  | k :: v :: rest, key => if k = key then rest else k :: v :: removeOnce rest key

/-- Model of `_metadata_remove_metadata_from_list` (the RemoveMatching
semantics): the payload is a plain key list here and every listed key has
its (key, value) cell pair removed from the snapshot. -/
def removeMetadataFromList : List String → List String → List String
  | list, [] => list
  | list, key :: rest => removeMetadataFromList (removeOnce list key) rest

/-- Model of `_cleanup_metadata_value`: a NULL or empty input becomes the
empty string; otherwise trailing space characters are stripped (the C walks
back from the end while `*c == ' '`) and then leading space characters are
stripped. Only the space character `' '` is stripped. -/
def cleanupMetadataValue : Option String → String
  | none => ""
  | some s =>
    if s.data.isEmpty then ""
    else String.mk (((s.data.reverse.dropWhile (fun c => c == ' ')).reverse).dropWhile
        (fun c => c == ' '))

/-- The three mutation semantics of `_metadata_execute`
(`DT_MA_SET` / `DT_MA_ADD` / `DT_MA_REMOVE`). -/
inductive MetadataAction
  | set
  | add
  | remove
deriving DecidableEq

/-- Model of the per-image body of `_metadata_execute`: read the image's
current snapshot as `before`, compute `after` from the action (Replace
takes the payload verbatim, MergeAdd merges it into a copy of `before`,
RemoveMatching deletes the listed keys from a copy of `before`), apply the
diff to the image's rows, and record the undo entry exactly when `undoOn`
is set (otherwise the C frees the entry immediately). -/
def metadataExecuteImage (imgid : Int) (state : List (String × String))
    (metadata : List String) (undoOn : Bool) (action : MetadataAction) :
    List (String × String) × List UndoMetadata :=
  let before := stateToSnapshot state
  let after :=
    match action with
    | .set => metadata
    | .add => addMetadataToList before metadata
    | .remove => removeMetadataFromList before metadata
  (popUndoExecute imgid state before after,
    if undoOn then [⟨imgid, before, after⟩] else [])

/-- Model of `dt_metadata_t`: one registered attribute definition. -/
structure MetadataDef where
  key : Int
  tagname : String
  name : String
  internal : Bool
  visible : Bool
  priv : Bool
  displayOrder : Int
deriving DecidableEq, Repr

/-- Character-level prefix test: `strncmp(key, tagname, strlen(tagname)) ==
0` holds exactly when the tagname's characters are a prefix of the key's. -/
def isPrefixOfStr (t k : String) : Bool := t.data.isPrefixOf k.data

/-- Model of `dt_metadata_get_keyid`: return the key id of the first
registry entry whose tagname is a prefix of the query, `-1` (the uint32
sentinel) when none matches or the query is NULL. -/
def dt_metadata_get_keyid (registry : List MetadataDef) (key : Option String) : Int :=
  match key with
  | none => -1
  | some k =>
    match registry.find? (fun md => isPrefixOfStr md.tagname k) with
    | some md => md.key
    | none => -1

/-- Model of `dt_metadata_get_metadata_by_tagname`: first registry entry
with exactly this tagname. -/
def dt_metadata_get_metadata_by_tagname (registry : List MetadataDef)
    (tagname : String) : Option MetadataDef :=
  registry.find? (fun md => md.tagname == tagname)

/-- Model of the key-list construction in `dt_metadata_clear`: prepend the
key of every non-internal, visible registry entry and reverse, giving the
clearable keys in registry iteration order. -/
def clearMetadataKeys (registry : List MetadataDef) : List String :=
  (registry.foldl
    (fun acc md => if !md.internal && md.visible then toString md.key :: acc else acc)
    []).reverse

/-- Model of the single-valid-image path of `dt_metadata_set`: a NULL or
unknown key does nothing; otherwise the (key id, cleaned value) payload is
merged with `DT_MA_ADD` and the undo entries are recorded iff `undoOn`. -/
def dtMetadataSet (registry : List MetadataDef) (imgid : Int) (key : Option String)
    (value : Option String) (undoOn : Bool) (state : List (String × String)) :
    List (String × String) × List UndoMetadata :=
  match key with
  | none => (state, [])
  | some _ =>
    if dt_metadata_get_keyid registry key = -1 then (state, [])
    else
      metadataExecuteImage imgid state
        [toString (dt_metadata_get_keyid registry key), cleanupMetadataValue value]
        undoOn .add

/-- Model of `dt_metadata_set_import`: a NULL key or invalid image does
nothing; an unknown tagname does nothing; the import flag is the xmp mode
not being "never", or (for non-internal keys) the per-key configuration
flag; when importing, the (key id, cleaned value) payload is merged with
`DT_MA_ADD` and undo recording hard-wired off (`FALSE` in the C call). -/
def dtMetadataSetImport (registry : List MetadataDef) (xmpNever : Bool)
    (confImportedFlag : Bool) (imgidValid : Bool) (imgid : Int)
    (key : Option String) (value : Option String) (state : List (String × String)) :
    List (String × String) × List UndoMetadata :=
  match key with
  | none => (state, [])
  | some k =>
    if !imgidValid then (state, [])
    else
      match dt_metadata_get_metadata_by_tagname registry k with
      | none => (state, [])
      | some md =>
        if !xmpNever || (!md.internal && confImportedFlag) then
          metadataExecuteImage imgid state
            [toString md.key, cleanupMetadataValue value] false .add
        else (state, [])

/-- Model of the payload construction of `dt_metadata_set_list`: every
(key, value) input pair whose key resolves in the registry and whose value
is non-NULL contributes its key id and cleaned value; other pairs are
skipped. -/
def dtMetadataSetListPayload (registry : List MetadataDef) :
    List (String × Option String) → List String
  | [] => []
  | (key, value) :: rest =>
    if dt_metadata_get_keyid registry (some key) = -1 then
      dtMetadataSetListPayload registry rest
    else
      match value with
      | some v =>
        toString (dt_metadata_get_keyid registry (some key))
          :: cleanupMetadataValue (some v)
          :: dtMetadataSetListPayload registry rest
      | none => dtMetadataSetListPayload registry rest

/-- Model of the per-image effect of `dt_metadata_clear`: build the
clearable key list and, when it is non-empty, run the RemoveMatching
mutation over it. -/
def dtMetadataClear (registry : List MetadataDef) (imgid : Int) (undoOn : Bool)
    (state : List (String × String)) : List (String × String) × List UndoMetadata :=
  if (clearMetadataKeys registry).isEmpty then (state, [])
  else metadataExecuteImage imgid state (clearMetadataKeys registry) undoOn .remove

/-- Modelled from the spec: the backing store's `data.meta_data` definition
table (its schema is not under src/), whose insert honours the tagname
uniqueness constraint the spec attributes to the store — inserting an
existing tagname is rejected and leaves the table unchanged, a new tagname
receives a fresh generated key. Rows are (key, tagname). -/
def storeInsertDef (rows : List (Int × String)) (tagname : String) :
    List (Int × String) :=
  if rows.any (fun r => r.2 == tagname) then rows
  else rows ++ [(Int.ofNat rows.length + 1, tagname)]

/-- The follow-up `SELECT key FROM data.meta_data WHERE tagname = ?1` of
`dt_metadata_add_metadata`: the key of the first row with this tagname. -/
def storeSelectKey (rows : List (Int × String)) (tagname : String) : Option Int :=
  (rows.find? (fun r => r.2 == tagname)).map (fun r => r.1)

/-- Model of `dt_metadata_add_metadata`: run the insert (its own outcome is
never inspected by the C), then look the tagname's key up; when the lookup
yields a row the call reports success, stores that key in the definition
and prepends it to the in-memory registry, otherwise it reports failure and
leaves the registry unchanged. -/
def dt_metadata_add_metadata (rows : List (Int × String))
    (registry : List MetadataDef) (md : MetadataDef) :
    Bool × List (Int × String) × List MetadataDef :=
  let rows2 := storeInsertDef rows md.tagname
  match storeSelectKey rows2 md.tagname with
  | some k =>
    (true, rows2,
      (⟨k, md.tagname, md.name, md.internal, md.visible, md.priv, md.displayOrder⟩
        : MetadataDef) :: registry)
  | none => (false, rows2, registry)

/-- Pair-level removal condition of the diff engine: the key of a `before`
pair is marked when it has no match in `after`, or the first matching value
differs, or the `before` value is empty. -/
def remCondP (A : List (String × String)) (kv : String × String) : Bool :=
  match lookupVal A kv.1 with
  | none => true
  | some v2 => v2 != kv.2 || kv.2 == ""

/-- Pair-level insertion condition of the diff engine: an `after` pair is
emitted when its value is non-empty and the key has no match in `before`
or the first matching value differs. -/
def addCondP (B : List (String × String)) (kv : String × String) : Bool :=
  (match lookupVal B kv.1 with
   | none => true
   | some v2 => v2 != kv.2) && kv.2 != ""

/-- Pair-level view of `replaceValue`: overwrite the value of the first
pair carrying the key. -/
def replacePair : List (String × String) → String → String → List (String × String)
  | [], _, _ => []
  | p :: rest, k, v => if p.1 = k then (p.1, v) :: rest else p :: replacePair rest k v

/-- Pair-level view of one MergeAdd round: overwrite the first matching
pair's value when it differs, append when the key is absent. -/
def mergePair (ps : List (String × String)) (k v : String) : List (String × String) :=
  match lookupVal ps k with
  | some v2 => if v2 != v then replacePair ps k v else ps
  | none => ps ++ [(k, v)]

/-- Pair-level view of the full MergeAdd over a paired payload. -/
def mergePairs (ps pm : List (String × String)) : List (String × String) :=
  pm.foldl (fun acc kv => mergePair acc kv.1 kv.2) ps

theorem not_chunked_one (k : String) : ¬ Chunked [k] := by
  simp [Chunked]

theorem chunked_cons_cons {k v : String} {l : List String} :
    Chunked (k :: v :: l) ↔ Chunked l := by
  simp only [Chunked, List.length_cons]
  omega

theorem contains_iff_mem (l : List String) (a : String) :
    l.contains a = true ↔ a ∈ l := by
  simp [List.contains, List.elem_iff]

theorem find_chunked : (l : List String) → Chunked l → (k : String) →
    (listFindCustom l k = none ∧ lookupVal (toPairs l) k = none) ∨
    (∃ v2 r2, listFindCustom l k = some (k :: v2 :: r2) ∧
      lookupVal (toPairs l) k = some v2)
  | [], _, _ => Or.inl ⟨rfl, rfl⟩
  | [k'], h, _ => absurd h (not_chunked_one k')
  | k' :: v' :: rest, h, k => by
    by_cases hk : k' = k
    · subst hk
      exact Or.inr ⟨v', rest, by simp [listFindCustom], by simp [toPairs, lookupVal]⟩
    · rcases find_chunked rest (chunked_cons_cons.mp h) k with ⟨h1, h2⟩ | ⟨v2, r2, h1, h2⟩
      · exact Or.inl ⟨by simp [listFindCustom, hk, h1],
          by simp [toPairs, lookupVal, hk, h2]⟩
      · exact Or.inr ⟨v2, r2, by simp [listFindCustom, hk, h1],
          by simp [toPairs, lookupVal, hk, h2]⟩

theorem getTbRemoved_eq : (before : List String) → (after : List String) →
    Chunked before → Chunked after →
    getTbRemoved before after
      = ((toPairs before).filter (remCondP (toPairs after))).map Prod.fst
  | [], _, _, _ => rfl
  | [k], _, hb, _ => absurd hb (not_chunked_one k)
  | k :: v :: rest, after, hb, ha => by
    have ih := getTbRemoved_eq rest after (chunked_cons_cons.mp hb) ha
    rcases find_chunked after ha k with ⟨h1, h2⟩ | ⟨v2, r2, h1, h2⟩
    · simp [getTbRemoved, toPairs, remCondP, h1, h2, ih, List.filter_cons]
    · simp only [getTbRemoved, toPairs, remCondP, h1, h2, ih, List.filter_cons]
      by_cases hc : v2 = v
      · subst hc
        by_cases hv : v2 = "" <;> simp [hv]
      · simp [hc]

theorem getTbAdded_eq (imgid : Int) : (before : List String) → (after : List String) →
    Chunked before → Chunked after →
    getTbAdded imgid before after
      = ((toPairs after).filter (addCondP (toPairs before))).map
          (fun kv => (imgid, kv.1, kv.2))
  | _, [], _, _ => rfl
  | _, [k], _, ha => absurd ha (not_chunked_one k)
  | before, k :: v :: rest, hb, ha => by
    have ih := getTbAdded_eq imgid before rest hb (chunked_cons_cons.mp ha)
    rcases find_chunked before hb k with ⟨h1, h2⟩ | ⟨v2, r2, h1, h2⟩
    · simp only [getTbAdded, toPairs, addCondP, h1, h2, ih, List.filter_cons]
      by_cases hv : v = "" <;> simp [hv]
    · simp only [getTbAdded, toPairs, addCondP, h1, h2, ih, List.filter_cons]
      by_cases hc : v2 = v
      · subst hc
        simp
      · by_cases hv : v = "" <;> simp [hc, hv]


theorem nodupKeys_cons {p : String × String} {rest : List (String × String)} :
    NodupKeys (p :: rest) ↔ p.1 ∉ rest.map Prod.fst ∧ NodupKeys rest := by
  simp [NodupKeys]

theorem lookupVal_append (l1 l2 : List (String × String)) (k : String) :
    lookupVal (l1 ++ l2) k =
      match lookupVal l1 k with
      | some v => some v
      | none => lookupVal l2 k := by
  induction l1 with
  | nil => rfl
  | cons p rest ih => by_cases h : p.1 = k <;> simp [lookupVal, h, ih]

theorem lookupVal_none_iff {l : List (String × String)} {k : String} :
    lookupVal l k = none ↔ k ∉ l.map Prod.fst := by
  induction l with
  | nil => simp [lookupVal]
  | cons p rest ih =>
    by_cases h : p.1 = k
    · subst h
      simp [lookupVal]
    · simp [lookupVal, h, ih, Ne.symm h]

theorem lookupVal_mem {l : List (String × String)} {k v : String}
    (h : lookupVal l k = some v) : (k, v) ∈ l := by
  induction l with
  | nil => simp [lookupVal] at h
  | cons p rest ih =>
    by_cases hk : p.1 = k
    · simp [lookupVal, hk] at h
      have : p = (k, v) := Prod.ext hk h
      rw [this]
      exact List.mem_cons_self _ _
    · simp [lookupVal, hk] at h
      exact List.mem_cons_of_mem p (ih h)

theorem mem_lookupVal {l : List (String × String)} {k v : String}
    (h : NodupKeys l) (hm : (k, v) ∈ l) : lookupVal l k = some v := by
  induction l with
  | nil => simp at hm
  | cons p rest ih =>
    have hc := nodupKeys_cons.mp h
    rcases List.mem_cons.mp hm with heq | hmem
    · rw [← heq]
      simp [lookupVal]
    · have hk : p.1 ≠ k := by
        intro hk
        have : p.1 ∈ rest.map Prod.fst := by
          rw [hk]
          exact List.mem_map.mpr ⟨(k, v), hmem, rfl⟩
        exact hc.1 this
      simp [lookupVal, hk, ih hc.2 hmem]

theorem mem_keys_iff {l : List (String × String)} {k : String} :
    k ∈ l.map Prod.fst ↔ ∃ v, (k, v) ∈ l := by
  rw [List.mem_map]
  constructor
  · rintro ⟨p, hp, rfl⟩
    exact ⟨p.2, hp⟩
  · rintro ⟨v, hv⟩
    exact ⟨(k, v), hv, rfl⟩

theorem lookupVal_keyFilter (l : List (String × String)) (q : String → Bool) (k : String) :
    lookupVal (l.filter (fun r => q r.1)) k = if q k then lookupVal l k else none := by
  induction l with
  | nil => simp [lookupVal]
  | cons p rest ih =>
    by_cases hq : q p.1
    · by_cases hk : p.1 = k
      · subst hk
        simp [List.filter_cons, lookupVal, hq]
      · simp [List.filter_cons, lookupVal, hq, hk, ih]
    · by_cases hk : p.1 = k
      · subst hk
        simp only [List.filter_cons]
        rw [if_neg (by simpa using hq), ih]
        simp [hq]
      · simp only [List.filter_cons]
        rw [if_neg (by simpa using hq), ih]
        by_cases hqk : q k
        · simp [hqk, lookupVal, hk]
        · simp [hqk]

theorem lookupVal_filterNodup (l : List (String × String)) (p : String × String → Bool)
    (k : String) (h : NodupKeys l) :
    lookupVal (l.filter p) k =
      match lookupVal l k with
      | some v => if p (k, v) then some v else none
      | none => none := by
  induction l with
  | nil => simp [lookupVal]
  | cons q rest ih =>
    have hc := nodupKeys_cons.mp h
    by_cases hk : q.1 = k
    · have hq : q = (k, q.2) := Prod.ext hk rfl
      by_cases hp : p q
      · rw [List.filter_cons, if_pos (by simpa using hp)]
        simp only [lookupVal, hk, if_pos]
        rw [hq] at hp
        simp [hp]
      · rw [List.filter_cons, if_neg (by simpa using hp)]
        have hnone : lookupVal rest k = none := by
          rw [lookupVal_none_iff, ← hk]
          exact hc.1
        have hfil : lookupVal (rest.filter p) k = none := by
          rw [lookupVal_none_iff]
          intro hmem
          rcases mem_keys_iff.mp hmem with ⟨v, hv⟩
          exact (lookupVal_none_iff.mp hnone)
            (mem_keys_iff.mpr ⟨v, List.mem_of_mem_filter hv⟩)
        rw [hfil]
        simp only [lookupVal, hk, if_pos]
        rw [hq] at hp
        simp [hp]
    · by_cases hp : p q
      · rw [List.filter_cons, if_pos (by simpa using hp)]
        simp [lookupVal, hk, ih hc.2]
      · rw [List.filter_cons, if_neg (by simpa using hp)]
        simp [lookupVal, hk, ih hc.2]

theorem mem_getTbRemoved {before after : List String} {k : String}
    (hb : Chunked before) (ha : Chunked after) :
    k ∈ getTbRemoved before after ↔
      ∃ v, (k, v) ∈ toPairs before ∧ remCondP (toPairs after) (k, v) = true := by
  rw [getTbRemoved_eq before after hb ha]
  simp only [List.mem_map, List.mem_filter]
  constructor
  · rintro ⟨⟨k', v⟩, ⟨hmem, hcond⟩, rfl⟩
    exact ⟨v, hmem, hcond⟩
  · rintro ⟨v, hmem, hcond⟩
    exact ⟨(k, v), ⟨hmem, hcond⟩, rfl⟩

theorem mem_getTbAdded {before after : List String} {i : Int} {k v : String}
    (hb : Chunked before) (ha : Chunked after) :
    (i, k, v) ∈ getTbAdded i before after ↔
      (k, v) ∈ toPairs after ∧ addCondP (toPairs before) (k, v) = true := by
  rw [getTbAdded_eq i before after hb ha]
  simp only [List.mem_map, List.mem_filter]
  constructor
  · rintro ⟨⟨k', v'⟩, ⟨hmem, hcond⟩, heq⟩
    obtain ⟨h1, h2⟩ : k' = k ∧ v' = v := by
      simpa [Prod.ext_iff] using heq
    subst h1
    subst h2
    exact ⟨hmem, hcond⟩
  · rintro ⟨hmem, hcond⟩
    exact ⟨(k, v), ⟨hmem, hcond⟩, rfl⟩

theorem addedRows_eq (i : Int) (before after : List String)
    (hb : Chunked before) (ha : Chunked after) :
    (getTbAdded i before after).map (fun t => (t.2.1, t.2.2))
      = (toPairs after).filter (addCondP (toPairs before)) := by
  rw [getTbAdded_eq i before after hb ha, List.map_map]
  have hid : ((fun (t : Int × String × String) => (t.2.1, t.2.2)) ∘
      (fun (kv : String × String) => (i, kv.1, kv.2))) = id := by
    funext kv
    rfl
  rw [hid, List.map_id]

theorem applyDiff_lookup (i : Int) (s : List (String × String)) (bs as : List String)
    (hcb : Chunked bs) (hca : Chunked as)
    (hnb : NodupKeys (toPairs bs)) (hna : NodupKeys (toPairs as))
    (hvb : ∀ p ∈ toPairs bs, p.2 ≠ "")
    (hs : ∀ k0, lookupVal s k0 = lookupVal (toPairs bs) k0) (k : String) :
    lookupVal (popUndoExecute i s bs as) k =
      match lookupVal (toPairs as) k with
      | some v => if v = "" then none else some v
      | none => none := by
  have hremiff : (k ∈ getTbRemoved bs as) ↔
      ∃ v, lookupVal (toPairs bs) k = some v ∧ remCondP (toPairs as) (k, v) = true := by
    rw [mem_getTbRemoved hcb hca]
    constructor
    · rintro ⟨v, hm, hc⟩
      exact ⟨v, mem_lookupVal hnb hm, hc⟩
    · rintro ⟨v, hl, hc⟩
      exact ⟨v, lookupVal_mem hl, hc⟩
  unfold popUndoExecute dbAddRows dbRemoveKeys
  rw [lookupVal_append, lookupVal_keyFilter s
      (fun x => !((getTbRemoved bs as).contains x)) k,
    addedRows_eq i bs as hcb hca, lookupVal_filterNodup _ _ _ hna, hs]
  rcases hbv : lookupVal (toPairs bs) k with _ | w
  · have hcont : ¬ (k ∈ getTbRemoved bs as) := by
      rw [hremiff]
      rintro ⟨v, hl, _⟩
      rw [hbv] at hl
      cases hl
    rcases hav : lookupVal (toPairs as) k with _ | v
    · simp [hcont, hbv, hav]
    · by_cases hv : v = "" <;> simp [hcont, hbv, hav, addCondP, hv]
  · have hw : w ≠ "" := hvb (k, w) (lookupVal_mem hbv)
    rcases hav : lookupVal (toPairs as) k with _ | v
    · have hcont : k ∈ getTbRemoved bs as := by
        rw [hremiff]
        exact ⟨w, hbv, by simp [remCondP, hav]⟩
      simp [hcont, hav]
    · by_cases hvw : v = w
      · subst hvw
        have hcont : ¬ (k ∈ getTbRemoved bs as) := by
          rw [hremiff]
          rintro ⟨v', hl, hc2⟩
          rw [hbv] at hl
          injection hl with hl'
          subst hl'
          simp [remCondP, hav, hw] at hc2
        simp [hcont, hbv, hav, hw]
      · have hcont : k ∈ getTbRemoved bs as := by
          rw [hremiff]
          refine ⟨w, hbv, ?_⟩
          simp only [remCondP, hav]
          simp [hvw]
        by_cases hv : v = "" <;>
          simp [hcont, hbv, hav, addCondP, hv, hvw, Ne.symm hvw]

theorem toPairs_stateToSnapshot : (s : List (String × String)) →
    toPairs (stateToSnapshot s) = s
  | [] => rfl
  | (k, v) :: rest => by
    simp [stateToSnapshot, toPairs, toPairs_stateToSnapshot rest]

theorem chunked_stateToSnapshot : (s : List (String × String)) →
    Chunked (stateToSnapshot s)
  | [] => by simp [Chunked, stateToSnapshot]
  | (k, v) :: rest => by
    rw [stateToSnapshot, chunked_cons_cons]
    exact chunked_stateToSnapshot rest

theorem length_replaceValue : (l : List String) → (k nv : String) →
    (replaceValue l k nv).length = l.length
  | [], _, _ => rfl
  | [_], _, _ => rfl
  | k' :: v' :: rest, k, nv => by
    by_cases h : k' = k <;>
      simp [replaceValue, h, length_replaceValue rest k nv]

theorem chunked_replaceValue {l : List String} (k nv : String) (h : Chunked l) :
    Chunked (replaceValue l k nv) := by
  unfold Chunked
  rw [length_replaceValue]
  exact h

theorem chunked_append_pair {l : List String} (k v : String) (h : Chunked l) :
    Chunked (l ++ [k, v]) := by
  unfold Chunked at h ⊢
  simp [List.length_append]
  omega

theorem toPairs_replaceValue : (l : List String) → (k nv : String) → Chunked l →
    toPairs (replaceValue l k nv) = replacePair (toPairs l) k nv
  | [], _, _, _ => rfl
  | [x], _, _, h => absurd h (not_chunked_one x)
  | k' :: v' :: rest, k, nv, h => by
    by_cases hk : k' = k <;>
      simp [replaceValue, toPairs, replacePair, hk,
        toPairs_replaceValue rest k nv (chunked_cons_cons.mp h)]

theorem toPairs_append_pair : (l : List String) → (k v : String) → Chunked l →
    toPairs (l ++ [k, v]) = toPairs l ++ [(k, v)]
  | [], _, _, _ => rfl
  | [x], _, _, h => absurd h (not_chunked_one x)
  | k' :: v' :: rest, k, v, h => by
    simp [toPairs, toPairs_append_pair rest k v (chunked_cons_cons.mp h)]

theorem mergePairs_cons (ps : List (String × String)) (k v : String)
    (pm : List (String × String)) :
    mergePairs ps ((k, v) :: pm) = mergePairs (mergePair ps k v) pm := rfl

theorem add_pairs : (m : List String) → (l : List String) → Chunked l → Chunked m →
    toPairs (addMetadataToList l m) = mergePairs (toPairs l) (toPairs m)
  | [], _, _, _ => rfl
  | [x], _, _, hm => absurd hm (not_chunked_one x)
  | k :: v :: rest, l, hl, hm => by
    have hrest := chunked_cons_cons.mp hm
    rcases find_chunked l hl k with ⟨h1, h2⟩ | ⟨v2, r2, h1, h2⟩
    · rw [show toPairs (k :: v :: rest) = (k, v) :: toPairs rest from rfl,
        mergePairs_cons]
      have hstep : addMetadataToList l (k :: v :: rest)
          = addMetadataToList (l ++ [k, v]) rest := by
        simp [addMetadataToList, h1]
      rw [hstep, add_pairs rest (l ++ [k, v]) (chunked_append_pair k v hl) hrest,
        toPairs_append_pair l k v hl]
      have : mergePair (toPairs l) k v = toPairs l ++ [(k, v)] := by
        simp [mergePair, h2]
      rw [this]
    · by_cases hv : v2 = v
      · rw [show toPairs (k :: v :: rest) = (k, v) :: toPairs rest from rfl,
          mergePairs_cons]
        have hstep : addMetadataToList l (k :: v :: rest)
            = addMetadataToList l rest := by
          simp [addMetadataToList, h1, hv]
        rw [hstep, add_pairs rest l hl hrest]
        have hmp : mergePair (toPairs l) k v = toPairs l := by
          simp [mergePair, h2, hv]
        rw [hmp]
      · rw [show toPairs (k :: v :: rest) = (k, v) :: toPairs rest from rfl,
          mergePairs_cons]
        have hstep : addMetadataToList l (k :: v :: rest)
            = addMetadataToList (replaceValue l k v) rest := by
          simp [addMetadataToList, h1, hv]
        rw [hstep,
          add_pairs rest (replaceValue l k v) (chunked_replaceValue k v hl) hrest,
          toPairs_replaceValue l k v hl]
        have : mergePair (toPairs l) k v = replacePair (toPairs l) k v := by
          simp [mergePair, h2, hv]
        rw [this]

theorem keys_replacePair : (ps : List (String × String)) → (k v : String) →
    (replacePair ps k v).map Prod.fst = ps.map Prod.fst
  | [], _, _ => rfl
  | p :: rest, k, v => by
    by_cases h : p.1 = k <;>
      simp [replacePair, h, keys_replacePair rest k v]

theorem lookupVal_replacePair_same : (ps : List (String × String)) → (k v : String) →
    lookupVal (replacePair ps k v) k =
      match lookupVal ps k with
      | some _ => some v
      | none => none
  | [], _, _ => rfl
  | p :: rest, k, v => by
    by_cases h : p.1 = k <;>
      simp [replacePair, lookupVal, h, lookupVal_replacePair_same rest k v]

theorem lookupVal_replacePair_other : (ps : List (String × String)) → (k v k' : String) →
    k' ≠ k → lookupVal (replacePair ps k v) k' = lookupVal ps k'
  | [], _, _, _, _ => rfl
  | p :: rest, k, v, k', hne => by
    have hne2 : ¬(k = k') := fun hh => hne hh.symm
    by_cases h : p.1 = k
    · simp [replacePair, lookupVal, h, hne2]
    · by_cases h2 : p.1 = k'
      · simp [replacePair, lookupVal, h, h2, hne]
      · simp [replacePair, lookupVal, h, h2,
          lookupVal_replacePair_other rest k v k' hne]

theorem lookupVal_mergePair_same (ps : List (String × String)) (k v : String) :
    lookupVal (mergePair ps k v) k = some v := by
  unfold mergePair
  rcases h : lookupVal ps k with _ | v2
  · rw [lookupVal_append]
    simp [h, lookupVal]
  · by_cases hv : v2 = v
    · simp [hv, h]
    · simp only [hv, h]
      rw [if_pos (by simpa using hv), lookupVal_replacePair_same, h]

theorem lookupVal_mergePair_other (ps : List (String × String)) (k v k' : String)
    (hne : k' ≠ k) : lookupVal (mergePair ps k v) k' = lookupVal ps k' := by
  unfold mergePair
  have hne2 : ¬(k = k') := fun hh => hne hh.symm
  rcases h : lookupVal ps k with _ | v2
  · rw [lookupVal_append]
    rcases h' : lookupVal ps k' with _ | w <;> simp [h', lookupVal, hne2]
  · by_cases hv : v2 = v
    · simp [hv, h]
    · simp only [hv, h]
      rw [if_pos (by simpa using hv), lookupVal_replacePair_other ps k v k' hne]

theorem keys_mergePair (ps : List (String × String)) (k v : String) :
    (mergePair ps k v).map Prod.fst =
      if k ∈ ps.map Prod.fst then ps.map Prod.fst else ps.map Prod.fst ++ [k] := by
  unfold mergePair
  rcases h : lookupVal ps k with _ | v2
  · have : k ∉ ps.map Prod.fst := lookupVal_none_iff.mp h
    simp [this]
  · have : k ∈ ps.map Prod.fst := by
      rcases mem_keys_iff.mpr ⟨v2, lookupVal_mem h⟩ with hm
      exact hm
    by_cases hv : v2 = v
    · simp [hv, this]
    · simp only [hv, h]
      rw [if_pos (by simpa using hv), keys_replacePair, if_pos this]

theorem nodup_mergePair {ps : List (String × String)} (k v : String)
    (h : NodupKeys ps) : NodupKeys (mergePair ps k v) := by
  unfold NodupKeys
  rw [keys_mergePair]
  by_cases hm : k ∈ ps.map Prod.fst
  · simpa [hm] using h
  · simp only [hm, if_false]
    rw [List.nodup_append]
    exact ⟨h, List.nodup_singleton k, by simpa using hm⟩

theorem contains_eq (l : List String) (a : String) : l.contains a = decide (a ∈ l) := by
  by_cases h : a ∈ l
  · simp [h, (contains_iff_mem l a).mpr h]
  · simp only [h, decide_False]
    rw [Bool.eq_false_iff]
    intro hc
    exact h ((contains_iff_mem l a).mp hc)

theorem lookupVal_mergePairs : (pm ps : List (String × String)) → NodupKeys pm →
    (k : String) →
    lookupVal (mergePairs ps pm) k =
      match lookupVal pm k with
      | some v => some v
      | none => lookupVal ps k
  | [], _, _, _ => rfl
  | (k0, v0) :: rest, ps, hn, k => by
    have hc := nodupKeys_cons.mp hn
    rw [mergePairs_cons, lookupVal_mergePairs rest (mergePair ps k0 v0) hc.2 k]
    by_cases hk : k0 = k
    · subst hk
      have hnone : lookupVal rest k0 = none := lookupVal_none_iff.mpr hc.1
      simp [lookupVal, hnone, lookupVal_mergePair_same]
    · have hk' : k ≠ k0 := Ne.symm hk
      simp [lookupVal, hk, lookupVal_mergePair_other ps k0 v0 k hk']

theorem keys_mergePairs : (pm ps : List (String × String)) → NodupKeys pm →
    (mergePairs ps pm).map Prod.fst =
      ps.map Prod.fst
        ++ (pm.map Prod.fst).filter (fun k => !((ps.map Prod.fst).contains k))
  | [], ps, _ => by simp [mergePairs]
  | (k0, v0) :: rest, ps, hn => by
    have hc := nodupKeys_cons.mp hn
    rw [mergePairs_cons, keys_mergePairs rest (mergePair ps k0 v0) hc.2, keys_mergePair]
    by_cases hm : k0 ∈ ps.map Prod.fst
    · rw [if_pos hm]
      simp [List.filter_cons, contains_eq, hm]
    · rw [if_neg hm]
      have hfeq : (rest.map Prod.fst).filter
            (fun k => !((ps.map Prod.fst ++ [k0]).contains k))
          = (rest.map Prod.fst).filter (fun k => !((ps.map Prod.fst).contains k)) := by
        apply List.filter_congr
        intro x hx
        have hxk : x ≠ k0 := by
          intro hh
          rw [hh] at hx
          exact hc.1 hx
        by_cases hxm : x ∈ ps.map Prod.fst <;>
          simp [contains_eq, List.mem_append, hxm, hxk]
      rw [hfeq]
      simp [List.filter_cons, contains_eq, hm, List.append_assoc]

theorem nodup_mergePairs : (pm ps : List (String × String)) → NodupKeys ps →
    NodupKeys (mergePairs ps pm)
  | [], _, h => h
  | (k0, v0) :: rest, ps, h => by
    rw [mergePairs_cons]
    exact nodup_mergePairs rest _ (nodup_mergePair k0 v0 h)

theorem nodupKeys_filter (ps : List (String × String)) (p : String × String → Bool)
    (h : NodupKeys ps) : NodupKeys (ps.filter p) :=
  List.Nodup.sublist (List.Sublist.map Prod.fst (List.filter_sublist ps)) h

theorem chunked_removeOnce : (l : List String) → (key : String) → Chunked l →
    Chunked (removeOnce l key)
  | [], _, h => h
  | [x], _, h => absurd h (not_chunked_one x)
  | k :: v :: rest, key, h => by
    by_cases hk : k = key
    · simpa [removeOnce, hk] using chunked_cons_cons.mp h
    · rw [removeOnce, if_neg hk, chunked_cons_cons]
      exact chunked_removeOnce rest key (chunked_cons_cons.mp h)

theorem toPairs_removeOnce : (l : List String) → (key : String) → Chunked l →
    NodupKeys (toPairs l) →
    toPairs (removeOnce l key) = (toPairs l).filter (fun p => !(p.1 == key))
  | [], _, _, _ => rfl
  | [x], _, h, _ => absurd h (not_chunked_one x)
  | k :: v :: rest, key, h, hn => by
    have hc := nodupKeys_cons.mp (show NodupKeys ((k, v) :: toPairs rest) from hn)
    by_cases hk : k = key
    · subst hk
      rw [removeOnce, if_pos rfl]
      have hall : (toPairs rest).filter (fun p => !(p.1 == k)) = toPairs rest := by
        apply List.filter_eq_self.mpr
        intro p hp
        have : p.1 ≠ k := by
          intro hh
          apply hc.1
          rw [← hh]
          exact List.mem_map.mpr ⟨p, hp, rfl⟩
        simp [this]
      simp [toPairs, List.filter_cons, hall]
    · rw [removeOnce, if_neg hk]
      simp [toPairs, List.filter_cons, hk,
        toPairs_removeOnce rest key (chunked_cons_cons.mp h) hc.2]

theorem remove_pairs : (ks : List String) → (l : List String) → Chunked l →
    NodupKeys (toPairs l) →
    toPairs (removeMetadataFromList l ks)
      = (toPairs l).filter (fun p => !(ks.contains p.1))
  | [], l, _, _ => by simp [removeMetadataFromList]
  | key :: rest, l, hc, hn => by
    rw [removeMetadataFromList,
      remove_pairs rest (removeOnce l key) (chunked_removeOnce l key hc)
        (by rw [toPairs_removeOnce l key hc hn]; exact nodupKeys_filter _ _ hn),
      toPairs_removeOnce l key hc hn, List.filter_filter]
    apply List.filter_congr
    intro p hp
    by_cases h1 : p.1 = key <;> by_cases h2 : p.1 ∈ rest <;>
      simp [contains_eq, h1, h2]

theorem chunked_add : (m l : List String) → Chunked l → Chunked m →
    Chunked (addMetadataToList l m)
  | [], _, hl, _ => hl
  | [x], _, _, hm => absurd hm (not_chunked_one x)
  | k :: v :: rest, l, hl, hm => by
    have hrest := chunked_cons_cons.mp hm
    rcases find_chunked l hl k with ⟨h1, _⟩ | ⟨v2, r2, h1, _⟩
    · rw [show addMetadataToList l (k :: v :: rest)
          = addMetadataToList (l ++ [k, v]) rest by simp [addMetadataToList, h1]]
      exact chunked_add rest _ (chunked_append_pair k v hl) hrest
    · by_cases hv : v2 = v
      · rw [show addMetadataToList l (k :: v :: rest) = addMetadataToList l rest by
          simp [addMetadataToList, h1, hv]]
        exact chunked_add rest l hl hrest
      · rw [show addMetadataToList l (k :: v :: rest)
            = addMetadataToList (replaceValue l k v) rest by
          simp [addMetadataToList, h1, hv]]
        exact chunked_add rest _ (chunked_replaceValue k v hl) hrest

theorem chunked_removeList : (ks l : List String) → Chunked l →
    Chunked (removeMetadataFromList l ks)
  | [], _, h => h
  | key :: rest, l, h => by
    rw [removeMetadataFromList]
    exact chunked_removeList rest _ (chunked_removeOnce l key h)

theorem find?_tagname_first : (pre : List MetadataDef) → (md : MetadataDef) →
    (post : List MetadataDef) → (k : String) →
    (∀ m ∈ pre, isPrefixOfStr m.tagname k = false) → isPrefixOfStr md.tagname k = true →
    (pre ++ md :: post).find? (fun m => isPrefixOfStr m.tagname k) = some md
  | [], md, post, k, _, hmd => by
    simp only [List.nil_append]
    simp [List.find?, hmd]
  | m :: rest, md, post, k, hpre, hmd => by
    have h1 : isPrefixOfStr m.tagname k = false := hpre m (List.mem_cons_self m rest)
    simp only [List.cons_append]
    simp only [List.find?, h1]
    exact find?_tagname_first rest md post k
      (fun x hx => hpre x (List.mem_cons_of_mem m hx)) hmd

/-- C1: for chunked snapshots the diff engine marks a key of `before` for
removal exactly when the first pair with the same key in `after` does not
exist, or its value differs, or the `after` value is the empty string; and
it emits an insertion row `(imgid, key, value)` for an `after` pair exactly
when its value is non-empty and the first pair with the same key in
`before` does not exist or its value differs. -/
theorem diff_marks_membership (i : Int) (before after : List String)
    (hb : Chunked before) (ha : Chunked after) :
    (∀ k, k ∈ getTbRemoved before after ↔
      ∃ v, (k, v) ∈ toPairs before ∧
        (lookupVal (toPairs after) k = none ∨
          ∃ v2, lookupVal (toPairs after) k = some v2 ∧ (v2 ≠ v ∨ v2 = ""))) ∧
    (∀ k v, (i, k, v) ∈ getTbAdded i before after ↔
      ((k, v) ∈ toPairs after ∧ v ≠ "" ∧
        (lookupVal (toPairs before) k = none ∨
          ∃ v2, lookupVal (toPairs before) k = some v2 ∧ v2 ≠ v))) := by
  constructor
  · intro k
    rw [mem_getTbRemoved hb ha]
    constructor
    · rintro ⟨v, hm, hc⟩
      refine ⟨v, hm, ?_⟩
      rcases hav : lookupVal (toPairs after) k with _ | v2
      · exact Or.inl rfl
      · refine Or.inr ⟨v2, rfl, ?_⟩
        simp only [remCondP, hav] at hc
        simp only [Bool.or_eq_true, bne_iff_ne, beq_iff_eq] at hc
        rcases hc with h | h
        · exact Or.inl h
        · by_cases hvv : v2 = v
          · exact Or.inr (hvv.trans h)
          · exact Or.inl hvv
    · rintro ⟨v, hm, hc⟩
      refine ⟨v, hm, ?_⟩
      rcases hav : lookupVal (toPairs after) k with _ | v2
      · simp [remCondP, hav]
      · rcases hc with hnone | ⟨v2', hsome, hcc⟩
        · rw [hav] at hnone
          cases hnone
        · rw [hav] at hsome
          injection hsome with he
          subst he
          simp only [remCondP, hav]
          simp only [Bool.or_eq_true, bne_iff_ne, beq_iff_eq]
          rcases hcc with h | h
          · exact Or.inl h
          · by_cases hvv : v2 = v
            · exact Or.inr (hvv.symm.trans h)
            · exact Or.inl hvv
  · intro k v
    rw [mem_getTbAdded hb ha]
    constructor
    · rintro ⟨hm, hc⟩
      simp only [addCondP, Bool.and_eq_true, bne_iff_ne] at hc
      refine ⟨hm, hc.2, ?_⟩
      rcases hbv : lookupVal (toPairs before) k with _ | v2
      · exact Or.inl rfl
      · refine Or.inr ⟨v2, rfl, ?_⟩
        rw [hbv] at hc
        simpa using hc.1
    · rintro ⟨hm, hv, hc⟩
      refine ⟨hm, ?_⟩
      simp only [addCondP, Bool.and_eq_true, bne_iff_ne]
      refine ⟨?_, hv⟩
      rcases hc with hnone | ⟨v2, hsome, hne⟩
      · rw [hnone]
      · rw [hsome]
        simpa using hne

/-- C1 witness: concrete diff where key "1" changes value from "Ann" to
"Bea" and is marked for removal. -/
theorem diff_marks_membership_witness :
    Chunked ["1", "Ann"] ∧ Chunked ["1", "Bea"] ∧
    "1" ∈ getTbRemoved ["1", "Ann"] ["1", "Bea"] :=
  ⟨by decide, by decide,
    ((diff_marks_membership 7 ["1", "Ann"] ["1", "Bea"] (by decide) (by decide)).1
        "1").mpr
      ⟨"Ann", by decide, Or.inr ⟨"Bea", by decide, Or.inl (by decide)⟩⟩⟩

/-- C4 counterexample: on the snapshot with key "1" carrying the empty
value, `Diff(S, S)` marks the key for removal, so identical snapshots do
not always diff to empty. -/
theorem diff_self_counterexample :
    getTbRemoved ["1", ""] ["1", ""] = ["1"] ∧
    getTbRemoved ["1", ""] ["1", ""] ≠ [] := by
  refine ⟨rfl, ?_⟩
  decide

/-- C4 (amended): on snapshots with duplicate-free keys and non-empty
values, `Diff(S, S)` yields no removal and no insertion; and a key whose
first-match (key, value) pair with non-empty value is unchanged between
`before` and `after` contributes neither a removal nor an insertion. -/
theorem diff_self_empty (i : Int) :
    (∀ S, Chunked S → NodupKeys (toPairs S) → (∀ p ∈ toPairs S, p.2 ≠ "") →
      getTbRemoved S S = [] ∧ getTbAdded i S S = []) ∧
    (∀ before after k v, Chunked before → Chunked after →
      NodupKeys (toPairs before) → NodupKeys (toPairs after) →
      lookupVal (toPairs before) k = some v → lookupVal (toPairs after) k = some v →
      v ≠ "" →
      k ∉ getTbRemoved before after ∧ ∀ w, (i, k, w) ∉ getTbAdded i before after) := by
  constructor
  · intro S hS hn hv
    constructor
    · rw [getTbRemoved_eq S S hS hS]
      have : (toPairs S).filter (remCondP (toPairs S)) = [] := by
        rw [List.filter_eq_nil_iff]
        rintro ⟨k, v⟩ hm
        have hl : lookupVal (toPairs S) k = some v := mem_lookupVal hn hm
        simp [remCondP, hl, hv (k, v) hm]
      rw [this]
      rfl
    · rw [getTbAdded_eq i S S hS hS]
      have : (toPairs S).filter (addCondP (toPairs S)) = [] := by
        rw [List.filter_eq_nil_iff]
        rintro ⟨k, v⟩ hm
        have hl : lookupVal (toPairs S) k = some v := mem_lookupVal hn hm
        simp [addCondP, hl]
      rw [this]
      rfl
  · intro before after k v hb ha hnb hna hlb hla hv
    constructor
    · intro hmem
      rcases (mem_getTbRemoved hb ha).mp hmem with ⟨v', hm, hc⟩
      have : v' = v := by
        have := mem_lookupVal hnb hm
        rw [hlb] at this
        injection this with h
        exact h.symm
      subst this
      simp [remCondP, hla, hv] at hc
    · intro w hmem
      rcases (mem_getTbAdded hb ha).mp hmem with ⟨hm, hc⟩
      have : w = v := by
        have := mem_lookupVal hna hm
        rw [hla] at this
        injection this with h
        exact h.symm
      subst this
      simp [addCondP, hlb] at hc

/-- C4 witness: concrete identical snapshot with distinct keys and
non-empty values diffs to no removal. -/
theorem diff_self_empty_witness :
    Chunked ["1", "a", "2", "b"] ∧ NodupKeys (toPairs ["1", "a", "2", "b"]) ∧
    getTbRemoved ["1", "a", "2", "b"] ["1", "a", "2", "b"] = [] :=
  ⟨by decide, by decide,
    ((diff_self_empty 7).1 ["1", "a", "2", "b"] (by decide) (by decide)
      (by decide)).1⟩

/-- C6: the prefix lookup returns -1 (the uint32 not-found sentinel) for a
NULL key, -1 when no registered tagname is a prefix of the query, and
otherwise the key id of the first definition in registry iteration order
whose tagname is a prefix of the query. -/
theorem keyid_lookup_spec :
    (∀ t k, isPrefixOfStr t k = true ↔ t.data <+: k.data) ∧
    (∀ registry, dt_metadata_get_keyid registry none = -1) ∧
    (∀ registry k, (∀ md ∈ registry, isPrefixOfStr md.tagname k = false) →
      dt_metadata_get_keyid (registry : List MetadataDef) (some k) = -1) ∧
    (∀ pre md post k, (∀ m ∈ pre, isPrefixOfStr m.tagname k = false) →
      isPrefixOfStr md.tagname k = true →
      dt_metadata_get_keyid (pre ++ md :: post) (some k) = md.key) := by
  refine ⟨?_, fun _ => rfl, ?_, ?_⟩
  · intro t k
    unfold isPrefixOfStr
    exact List.isPrefixOf_iff_prefix
  · intro registry k h
    have heq : dt_metadata_get_keyid registry (some k) =
        match registry.find? (fun md => isPrefixOfStr md.tagname k) with
        | some md => md.key
        | none => -1 := rfl
    rw [heq]
    have hfind : registry.find? (fun md => isPrefixOfStr md.tagname k) = none := by
      rw [List.find?_eq_none]
      intro md hmd
      simp [h md hmd]
    rw [hfind]
  · intro pre md post k hpre hmd
    have heq : dt_metadata_get_keyid (pre ++ md :: post) (some k) =
        match (pre ++ md :: post).find? (fun m => isPrefixOfStr m.tagname k) with
        | some m => m.key
        | none => -1 := rfl
    rw [heq, find?_tagname_first pre md post k hpre hmd]

/-- C6 witness: a registry entry whose tagname is a strict prefix of the
query resolves to its key id. -/
theorem keyid_lookup_spec_witness :
    dt_metadata_get_keyid
        [(⟨5, "Xmp.dc.a", "a", false, true, false, 0⟩ : MetadataDef)]
        (some "Xmp.dc.abc") = 5 :=
  keyid_lookup_spec.2.2.2 [] ⟨5, "Xmp.dc.a", "a", false, true, false, 0⟩ []
    "Xmp.dc.abc" (by simp) (by decide)

/-- C9: snapshots read from the store are even-length and regroup exactly
into the stored rows, and both MergeAdd and RemoveMatching preserve the
even-length (key, value) pairing invariant. -/
theorem pairing_invariant :
    (∀ s : List (String × String),
      Chunked (stateToSnapshot s) ∧ toPairs (stateToSnapshot s) = s) ∧
    (∀ l m, Chunked l → Chunked m → Chunked (addMetadataToList l m)) ∧
    (∀ l ks, Chunked l → Chunked (removeMetadataFromList l ks)) :=
  ⟨fun s => ⟨chunked_stateToSnapshot s, toPairs_stateToSnapshot s⟩,
    fun l m hl hm => chunked_add m l hl hm,
    fun l ks hl => chunked_removeList ks l hl⟩

/-- C9 witness: a concrete MergeAdd keeps the snapshot even-length. -/
theorem pairing_invariant_witness :
    Chunked ["1", "a"] ∧ Chunked ["2", "b"] ∧
    Chunked (addMetadataToList ["1", "a"] ["2", "b"]) :=
  ⟨by decide, by decide, pairing_invariant.2.1 ["1", "a"] ["2", "b"]
    (by decide) (by decide)⟩

/-- C10: the import-time write entry point never records an undo entry —
for every registry, configuration, image, key, value and starting state its
recorded undo list is empty. -/
theorem import_records_no_undo :
    ∀ registry xmpNever confFlag imgidValid imgid key value state,
      (dtMetadataSetImport registry xmpNever confFlag imgidValid imgid key value
        state).2 = [] := by
  intro registry xmpNever confFlag imgidValid imgid key value state
  cases key with
  | none => rfl
  | some k =>
    unfold dtMetadataSetImport metadataExecuteImage
    repeat' split
    all_goals try rfl
    all_goals simp_all

/-- C5: evidence of the code bug — registering a definition whose tagname
already exists in the store makes the call return success (the rejected
insert is never checked; the follow-up key lookup finds the pre-existing
row) and prepends a duplicate entry carrying the old key id to the
registry, instead of failing and leaving the registry unchanged. -/
theorem add_metadata_duplicate_behaviour :
    (dt_metadata_add_metadata [((1 : Int), "Xmp.test.dup")]
        [⟨1, "Xmp.test.dup", "dup", false, true, false, 0⟩]
        ⟨0, "Xmp.test.dup", "dup2", false, true, false, 1⟩).1 = true ∧
    (dt_metadata_add_metadata [((1 : Int), "Xmp.test.dup")]
        [⟨1, "Xmp.test.dup", "dup", false, true, false, 0⟩]
        ⟨0, "Xmp.test.dup", "dup2", false, true, false, 1⟩).2.2
      = [⟨1, "Xmp.test.dup", "dup2", false, true, false, 1⟩,
          ⟨1, "Xmp.test.dup", "dup", false, true, false, 0⟩] := by
  constructor
  · decide
  · decide

/-- C3: MergeAdd yields the before snapshot with the payload merged in —
the result's key sequence is the before keys (in order, overwrites happen
in place) followed by the payload's new keys in payload order, and every
key looks up to the payload's value when the payload carries it and to its
before value otherwise. -/
theorem mergeAdd_spec (before payload : List String)
    (hb : Chunked before) (hp : Chunked payload)
    (hnp : NodupKeys (toPairs payload)) :
    keysOf (addMetadataToList before payload)
      = keysOf before
        ++ (keysOf payload).filter (fun k => !((keysOf before).contains k)) ∧
    ∀ k, lookupVal (toPairs (addMetadataToList before payload)) k
      = match lookupVal (toPairs payload) k with
        | some v => some v
        | none => lookupVal (toPairs before) k := by
  constructor
  · unfold keysOf
    rw [add_pairs payload before hb hp]
    exact keys_mergePairs (toPairs payload) (toPairs before) hnp
  · intro k
    rw [add_pairs payload before hb hp]
    exact lookupVal_mergePairs (toPairs payload) (toPairs before) hnp k

/-- C3 witness: merging a payload that overwrites key "1" and appends key
"3" produces exactly the before keys followed by the new key. -/
theorem mergeAdd_spec_witness :
    keysOf (addMetadataToList ["1", "Ann", "2", "x"] ["1", "Bea", "3", "y"])
      = ["1", "2", "3"] :=
  ((mergeAdd_spec ["1", "Ann", "2", "x"] ["1", "Bea", "3", "y"]
      (by decide) (by decide) (by decide)).1).trans (by decide)

/-- C2: undo replays the diff with the entry's snapshots swapped, redo
replays it unswapped, and undo followed by redo restores the original
after snapshot — on proper snapshots (paired, duplicate-free keys,
non-empty values) every key of the row set looks up to its original after
value again. -/
theorem undo_redo_symmetry (e : UndoMetadata)
    (hb : Chunked e.before) (ha : Chunked e.after)
    (hnb : NodupKeys (toPairs e.before)) (hna : NodupKeys (toPairs e.after))
    (hvb : ∀ p ∈ toPairs e.before, p.2 ≠ "")
    (hva : ∀ p ∈ toPairs e.after, p.2 ≠ "") :
    (∀ s, popUndoEntry .undo e s = popUndoExecute e.imgid s e.after e.before) ∧
    (∀ s, popUndoEntry .redo e s = popUndoExecute e.imgid s e.before e.after) ∧
    (∀ k, lookupVal (popUndoEntry .redo e (popUndoEntry .undo e (toPairs e.after))) k
      = lookupVal (toPairs e.after) k) := by
  refine ⟨fun s => rfl, fun s => rfl, fun k => ?_⟩
  have hstep1 : ∀ k0, lookupVal (popUndoEntry .undo e (toPairs e.after)) k0
      = lookupVal (toPairs e.before) k0 := by
    intro k0
    have h := applyDiff_lookup e.imgid (toPairs e.after) e.after e.before
      ha hb hna hnb hva (fun _ => rfl) k0
    rw [show popUndoEntry .undo e (toPairs e.after)
        = popUndoExecute e.imgid (toPairs e.after) e.after e.before from rfl, h]
    rcases hbv : lookupVal (toPairs e.before) k0 with _ | v
    · rfl
    · have : v ≠ "" := hvb (k0, v) (lookupVal_mem hbv)
      simp [this]
  have h2 := applyDiff_lookup e.imgid (popUndoEntry .undo e (toPairs e.after))
    e.before e.after hb ha hnb hna hvb hstep1 k
  rw [show popUndoEntry .redo e (popUndoEntry .undo e (toPairs e.after))
      = popUndoExecute e.imgid (popUndoEntry .undo e (toPairs e.after))
          e.before e.after from rfl, h2]
  rcases hav : lookupVal (toPairs e.after) k with _ | v
  · rfl
  · have : v ≠ "" := hva (k, v) (lookupVal_mem hav)
    simp [this]

/-- C2 witness: undo then redo of the entry taking key "1" from "Ann" to
"Bea" restores the value "Bea". -/
theorem undo_redo_symmetry_witness :
    lookupVal
        (popUndoEntry .redo ⟨7, ["1", "Ann"], ["1", "Bea"]⟩
          (popUndoEntry .undo ⟨7, ["1", "Ann"], ["1", "Bea"]⟩
            (toPairs ["1", "Bea"]))) "1"
      = some "Bea" :=
  ((undo_redo_symmetry ⟨7, ["1", "Ann"], ["1", "Bea"]⟩ (by decide) (by decide)
      (by decide) (by decide) (by decide) (by decide)).2.2 "1").trans (by decide)

theorem clearFold (registry : List MetadataDef) : ∀ acc,
    registry.foldl
        (fun acc md => if !md.internal && md.visible
          then toString md.key :: acc else acc) acc
      = ((registry.filter (fun md => !md.internal && md.visible)).map
          (fun md => toString md.key)).reverse ++ acc := by
  induction registry with
  | nil =>
    intro acc
    simp
  | cons md rest ih =>
    intro acc
    rw [List.foldl_cons, List.filter_cons]
    by_cases h : (!md.internal && md.visible) = true
    · rw [if_pos h, if_pos h, ih, List.map_cons, List.reverse_cons,
        List.append_assoc]
      rfl
    · rw [if_neg h, if_neg h, ih]

/-- C8: the bulk clear key list is exactly the non-internal visible
registered keys in registry order; a key id whose definition is internal or
invisible never appears in it (given distinct registered key renderings);
and clearing leaves every row whose key is outside the clear list looking
up to its unchanged value. -/
theorem clear_skips_internal (i : Int) :
    (∀ registry, clearMetadataKeys registry
      = (registry.filter (fun md => !md.internal && md.visible)).map
          (fun md => toString md.key)) ∧
    (∀ registry md, md ∈ registry → (md.internal = true ∨ md.visible = false) →
      (registry.map (fun m => toString m.key)).Nodup →
      toString md.key ∉ clearMetadataKeys registry) ∧
    (∀ registry undoOn s, NodupKeys s → (∀ p ∈ s, p.2 ≠ "") →
      ∀ k v, (k, v) ∈ s → k ∉ clearMetadataKeys registry →
        lookupVal ((dtMetadataClear registry i undoOn s).1) k = some v) := by
  have hfold : ∀ registry, clearMetadataKeys registry
      = (registry.filter (fun md => !md.internal && md.visible)).map
          (fun md => toString md.key) := by
    intro registry
    unfold clearMetadataKeys
    rw [clearFold registry []]
    simp
  refine ⟨hfold, ?_, ?_⟩
  · intro registry md hmem hflag hnodup hin
    rw [hfold] at hin
    rcases List.mem_map.mp hin with ⟨md', hmd', heq⟩
    have hmd'reg : md' ∈ registry := List.mem_of_mem_filter hmd'
    have hmdeq : md' = md := List.inj_on_of_nodup_map hnodup hmd'reg hmem heq
    subst hmdeq
    have hprop := List.of_mem_filter hmd'
    rcases hflag with h | h
    · rw [h] at hprop
      simp at hprop
    · rw [h] at hprop
      simp at hprop
  · intro registry undoOn s hn hv k v hm hnotin
    unfold dtMetadataClear
    by_cases hemp : (clearMetadataKeys registry).isEmpty
    · rw [if_pos hemp]
      exact mem_lookupVal hn hm
    · rw [if_neg hemp]
      have hres : (metadataExecuteImage i s (clearMetadataKeys registry)
            undoOn .remove).1
          = popUndoExecute i s (stateToSnapshot s)
              (removeMetadataFromList (stateToSnapshot s)
                (clearMetadataKeys registry)) := rfl
      rw [hres]
      have hcb := chunked_stateToSnapshot s
      have hpair := toPairs_stateToSnapshot s
      have hnb : NodupKeys (toPairs (stateToSnapshot s)) := by
        rw [hpair]
        exact hn
      have hAp : toPairs (removeMetadataFromList (stateToSnapshot s)
            (clearMetadataKeys registry))
          = s.filter (fun p => !((clearMetadataKeys registry).contains p.1)) := by
        rw [remove_pairs (clearMetadataKeys registry) (stateToSnapshot s) hcb hnb,
          hpair]
      have hca := chunked_removeList (clearMetadataKeys registry)
        (stateToSnapshot s) hcb
      have hna : NodupKeys (toPairs (removeMetadataFromList (stateToSnapshot s)
          (clearMetadataKeys registry))) := by
        rw [hAp]
        exact nodupKeys_filter s _ hn
      have hvb : ∀ p ∈ toPairs (stateToSnapshot s), p.2 ≠ "" := by
        rw [hpair]
        exact hv
      have hs0 : ∀ k0, lookupVal s k0
          = lookupVal (toPairs (stateToSnapshot s)) k0 := by
        intro k0
        rw [hpair]
      have happ := applyDiff_lookup i s (stateToSnapshot s)
        (removeMetadataFromList (stateToSnapshot s) (clearMetadataKeys registry))
        hcb hca hnb hna hvb hs0 k
      rw [happ, hAp,
        lookupVal_keyFilter s (fun x => !((clearMetadataKeys registry).contains x)) k]
      have hkc : ((clearMetadataKeys registry).contains k) = false := by
        rw [Bool.eq_false_iff]
        intro hc
        exact hnotin ((contains_iff_mem _ _).mp hc)
      rw [hkc]
      simp [mem_lookupVal hn hm, hv (k, v) hm]

/-- C8 witness: clearing with a registry holding one internal and one
plain key leaves the internal key's row intact. -/
theorem clear_skips_internal_witness :
    lookupVal ((dtMetadataClear
        [⟨1, "Xmp.a", "a", true, true, false, 0⟩,
          ⟨2, "Xmp.b", "b", false, true, false, 1⟩] 7 false
        [("1", "x"), ("2", "y")]).1) "1" = some "x" :=
  (clear_skips_internal 7).2.2
    [⟨1, "Xmp.a", "a", true, true, false, 0⟩,
      ⟨2, "Xmp.b", "b", false, true, false, 1⟩] false
    [("1", "x"), ("2", "y")] (by decide) (by decide) "1" "x" (by decide) (by decide)

theorem dropWhile_head_not : (l : List Char) → (p : Char → Bool) → (c : Char) →
    (cs : List Char) → l.dropWhile p = c :: cs → p c = false
  | [], _, _, _, h => by simp [List.dropWhile] at h
  | a :: l, p, c, cs, h => by
    by_cases hp : p a = true
    · rw [List.dropWhile_cons, if_pos hp] at h
      exact dropWhile_head_not l p c cs h
    · rw [List.dropWhile_cons, if_neg hp] at h
      injection h with h1 _
      rw [← h1]
      exact Bool.eq_false_iff.mpr hp

theorem takeWhile_space_rep (l : List Char) :
    l.takeWhile (fun c => c == ' ')
      = List.replicate (l.takeWhile (fun c => c == ' ')).length ' ' := by
  apply List.eq_replicate_of_mem
  intro b hb
  have := List.mem_takeWhile_imp hb
  simpa using this

theorem cleanupMetadataValue_some (s : String) :
    cleanupMetadataValue (some s)
      = if s.data.isEmpty then ""
        else String.mk (((s.data.reverse.dropWhile (fun c => c == ' ')).reverse).dropWhile
            (fun c => c == ' ')) := rfl

theorem cleanup_data (s : String) (he : ¬(s.data.isEmpty = true)) :
    (cleanupMetadataValue (some s)).data
      = ((s.data.reverse.dropWhile (fun c => c == ' ')).reverse).dropWhile
          (fun c => c == ' ') := by
  rw [cleanupMetadataValue_some, if_neg he]

theorem cleanup_all_space (s : String)
    (hall : s.data.all (fun c => c == ' ') = true) :
    cleanupMetadataValue (some s) = "" := by
  rw [cleanupMetadataValue_some]
  by_cases he : s.data.isEmpty = true
  · rw [if_pos he]
  · rw [if_neg he]
    have h1 : s.data.reverse.dropWhile (fun c => c == ' ') = [] := by
      rw [List.dropWhile_eq_nil_iff]
      intro x hx
      exact (List.all_eq_true.mp hall) x (List.mem_reverse.mp hx)
    rw [h1]
    rfl

theorem cleanup_decompose (s : String) :
    ∃ n m, s.data
        = List.replicate n ' ' ++ (cleanupMetadataValue (some s)).data
            ++ List.replicate m ' '
      ∧ (cleanupMetadataValue (some s)).data.head? ≠ some ' '
      ∧ (cleanupMetadataValue (some s)).data.getLast? ≠ some ' ' := by
  by_cases he : s.data.isEmpty = true
  · have hnil : s.data = [] := by
      cases hd : s.data with
      | nil => rfl
      | cons a l =>
        rw [hd] at he
        simp [List.isEmpty] at he
    have hval : (cleanupMetadataValue (some s)).data = [] := by
      rw [cleanupMetadataValue_some, if_pos he]
    exact ⟨0, 0, by simp [hval, hnil], by rw [hval]; simp, by rw [hval]; simp⟩
  · rw [cleanup_data s he]
    refine ⟨(((s.data.reverse.dropWhile (fun c => c == ' ')).reverse).takeWhile
        (fun c => c == ' ')).length,
      (s.data.reverse.takeWhile (fun c => c == ' ')).length, ?_, ?_, ?_⟩
    · calc s.data = (s.data.reverse).reverse := (List.reverse_reverse _).symm
        _ = (s.data.reverse.takeWhile (fun c => c == ' ')
              ++ s.data.reverse.dropWhile (fun c => c == ' ')).reverse := by
            rw [List.takeWhile_append_dropWhile]
        _ = (s.data.reverse.dropWhile (fun c => c == ' ')).reverse
              ++ (s.data.reverse.takeWhile (fun c => c == ' ')).reverse := by
            rw [List.reverse_append]
        _ = (((s.data.reverse.dropWhile (fun c => c == ' ')).reverse).takeWhile
                (fun c => c == ' ')
              ++ ((s.data.reverse.dropWhile (fun c => c == ' ')).reverse).dropWhile
                (fun c => c == ' '))
              ++ (s.data.reverse.takeWhile (fun c => c == ' ')).reverse := by
            rw [List.takeWhile_append_dropWhile]
        _ = List.replicate
                ((((s.data.reverse.dropWhile (fun c => c == ' ')).reverse).takeWhile
                  (fun c => c == ' ')).length) ' '
              ++ ((s.data.reverse.dropWhile (fun c => c == ' ')).reverse).dropWhile
                (fun c => c == ' ')
              ++ List.replicate
                ((s.data.reverse.takeWhile (fun c => c == ' ')).length) ' ' := by
            rw [← takeWhile_space_rep]
            rw [show (s.data.reverse.takeWhile (fun c => c == ' ')).reverse
                = List.replicate
                    ((s.data.reverse.takeWhile (fun c => c == ' ')).length) ' ' by
              rw [takeWhile_space_rep (s.data.reverse)]
              rw [List.reverse_replicate, List.length_replicate]]
    · rcases hres : ((s.data.reverse.dropWhile (fun c => c == ' ')).reverse).dropWhile
          (fun c => c == ' ') with _ | ⟨c, cs⟩
      · simp
      · have hc := dropWhile_head_not _ _ c cs hres
        simp only [List.head?_cons]
        intro heq
        injection heq with heq2
        rw [heq2] at hc
        simp at hc
    · rcases hres : ((s.data.reverse.dropWhile (fun c => c == ' ')).reverse).dropWhile
          (fun c => c == ' ') with _ | ⟨c, cs⟩
      · simp
      · have hsplit : (s.data.reverse.dropWhile (fun c => c == ' ')).reverse
            = ((s.data.reverse.dropWhile (fun c => c == ' ')).reverse).takeWhile
                (fun c => c == ' ') ++ (c :: cs) := by
          rw [← hres, List.takeWhile_append_dropWhile]
        have hlast : (c :: cs).getLast?
            = ((s.data.reverse.dropWhile (fun c => c == ' ')).reverse).getLast? := by
          rw [hsplit, List.getLast?_append_of_ne_nil]
          simp
        have hfinal : ((s.data.reverse.dropWhile (fun c => c == ' ')).reverse).getLast?
            = (s.data.reverse.dropWhile (fun c => c == ' ')).head? := by
          rw [← List.head?_reverse, List.reverse_reverse]
        rw [hlast, hfinal]
        rcases hr1 : s.data.reverse.dropWhile (fun c => c == ' ') with _ | ⟨d, ds⟩
        · simp
        · have hd := dropWhile_head_not _ _ d ds hr1
          simp only [List.head?_cons]
          intro heq
          injection heq with heq2
          rw [heq2] at hd
          simp at hd

theorem set_empty_removes (i : Int) (ck : String) (s : List (String × String))
    (hn : NodupKeys s) (hv : ∀ p ∈ s, p.2 ≠ "") (undoOn : Bool) :
    lookupVal ((metadataExecuteImage i s [ck, ""] undoOn .add).1) ck = none := by
  have hres : (metadataExecuteImage i s [ck, ""] undoOn .add).1
      = popUndoExecute i s (stateToSnapshot s)
          (addMetadataToList (stateToSnapshot s) [ck, ""]) := rfl
  rw [hres]
  have hcb := chunked_stateToSnapshot s
  have hpair := toPairs_stateToSnapshot s
  have hnb : NodupKeys (toPairs (stateToSnapshot s)) := by
    rw [hpair]
    exact hn
  have hcp : Chunked [ck, ""] := by simp [Chunked]
  have hAp : toPairs (addMetadataToList (stateToSnapshot s) [ck, ""])
      = mergePair s ck "" := by
    rw [add_pairs [ck, ""] (stateToSnapshot s) hcb hcp, hpair]
    rfl
  have hca := chunked_add [ck, ""] (stateToSnapshot s) hcb hcp
  have hna : NodupKeys (toPairs (addMetadataToList (stateToSnapshot s) [ck, ""])) := by
    rw [hAp]
    exact nodup_mergePair ck "" hn
  have hvb : ∀ p ∈ toPairs (stateToSnapshot s), p.2 ≠ "" := by
    rw [hpair]
    exact hv
  have hs0 : ∀ k0, lookupVal s k0 = lookupVal (toPairs (stateToSnapshot s)) k0 := by
    intro k0
    rw [hpair]
  have happ := applyDiff_lookup i s (stateToSnapshot s)
    (addMetadataToList (stateToSnapshot s) [ck, ""]) hcb hca hnb hna hvb hs0 ck
  rw [happ, hAp, lookupVal_mergePair_same]
  simp

theorem setListPayload_cleaned (registry : List MetadataDef) :
    (kvs : List (String × Option String)) →
    ∀ p ∈ toPairs (dtMetadataSetListPayload registry kvs),
      ∃ w, p.2 = cleanupMetadataValue (some w)
  | [], p, hp => by simp [dtMetadataSetListPayload, toPairs] at hp
  | (key, value) :: rest, p, hp => by
    by_cases hk : dt_metadata_get_keyid registry (some key) = -1
    · rw [show dtMetadataSetListPayload registry ((key, value) :: rest)
          = dtMetadataSetListPayload registry rest from by
        simp [dtMetadataSetListPayload, hk]] at hp
      exact setListPayload_cleaned registry rest p hp
    · rcases value with _ | v
      · rw [show dtMetadataSetListPayload registry ((key, none) :: rest)
            = dtMetadataSetListPayload registry rest from by
          simp [dtMetadataSetListPayload, hk]] at hp
        exact setListPayload_cleaned registry rest p hp
      · rw [show dtMetadataSetListPayload registry ((key, some v) :: rest)
            = toString (dt_metadata_get_keyid registry (some key))
              :: cleanupMetadataValue (some v)
              :: dtMetadataSetListPayload registry rest from by
          simp [dtMetadataSetListPayload, hk]] at hp
        rw [show toPairs (toString (dt_metadata_get_keyid registry (some key))
              :: cleanupMetadataValue (some v)
              :: dtMetadataSetListPayload registry rest)
            = (toString (dt_metadata_get_keyid registry (some key)),
                cleanupMetadataValue (some v))
              :: toPairs (dtMetadataSetListPayload registry rest) from rfl] at hp
        rcases List.mem_cons.mp hp with heq | htail
        · exact ⟨v, by rw [heq]⟩
        · exact setListPayload_cleaned registry rest p htail

/-- C7 counterexample: the tab-only value is all-whitespace yet survives
cleaning unchanged and non-empty — only the space character is stripped, so
an all-whitespace value does not in general become the empty sentinel. -/
theorem cleanup_tab_counterexample :
    "\t".data.all (fun c => c.isWhitespace) = true ∧
    cleanupMetadataValue (some "\t") = "\t" ∧ ("\t" : String) ≠ "" := by
  refine ⟨by decide, by decide, by decide⟩

/-- C7 (amended): every value written through the MergeAdd entry points is
cleaned before diffing — an absent value and an all-space value become the
empty sentinel, cleaning strips exactly the leading and trailing space
characters, `dt_metadata_set`, `dt_metadata_set_import` and
`dt_metadata_set_list` all pass the cleaned value into the mutation, and a
value cleaned to the empty sentinel makes the diff delete the key from the
persisted snapshot. -/
theorem cleanup_before_diff (i : Int) :
    (cleanupMetadataValue none = "") ∧
    (∀ s, s.data.all (fun c => c == ' ') = true →
      cleanupMetadataValue (some s) = "") ∧
    (∀ s, ∃ n m, s.data
        = List.replicate n ' ' ++ (cleanupMetadataValue (some s)).data
            ++ List.replicate m ' '
      ∧ (cleanupMetadataValue (some s)).data.head? ≠ some ' '
      ∧ (cleanupMetadataValue (some s)).data.getLast? ≠ some ' ') ∧
    (∀ registry k value undoOn state,
      dt_metadata_get_keyid registry (some k) ≠ -1 →
      dtMetadataSet registry i (some k) value undoOn state
        = metadataExecuteImage i state
            [toString (dt_metadata_get_keyid registry (some k)),
              cleanupMetadataValue value] undoOn .add) ∧
    (∀ registry xmpNever confFlag k value state md,
      dt_metadata_get_metadata_by_tagname registry k = some md →
      (!xmpNever || (!md.internal && confFlag)) = true →
      dtMetadataSetImport registry xmpNever confFlag true i (some k) value state
        = metadataExecuteImage i state
            [toString md.key, cleanupMetadataValue value] false .add) ∧
    (∀ registry kvs p, p ∈ toPairs (dtMetadataSetListPayload registry kvs) →
      ∃ w, p.2 = cleanupMetadataValue (some w)) ∧
    (∀ registry k value undoOn s, NodupKeys s → (∀ p ∈ s, p.2 ≠ "") →
      cleanupMetadataValue value = "" →
      dt_metadata_get_keyid registry (some k) ≠ -1 →
      lookupVal ((dtMetadataSet registry i (some k) value undoOn s).1)
        (toString (dt_metadata_get_keyid registry (some k))) = none) := by
  refine ⟨rfl, cleanup_all_space, cleanup_decompose, ?_, ?_, ?_, ?_⟩
  · intro registry k value undoOn state hk
    have heq : dtMetadataSet registry i (some k) value undoOn state
        = if dt_metadata_get_keyid registry (some k) = -1 then (state, [])
          else metadataExecuteImage i state
            [toString (dt_metadata_get_keyid registry (some k)),
              cleanupMetadataValue value] undoOn .add := rfl
    rw [heq, if_neg hk]
  · intro registry xmpNever confFlag k value state md hmd himp
    have heq : dtMetadataSetImport registry xmpNever confFlag true i (some k)
          value state
        = if (!true) = true then (state, ([] : List UndoMetadata))
          else match dt_metadata_get_metadata_by_tagname registry k with
            | none => (state, [])
            | some md' =>
              if (!xmpNever || (!md'.internal && confFlag)) = true then
                metadataExecuteImage i state
                  [toString md'.key, cleanupMetadataValue value] false .add
              else (state, []) := rfl
    rw [heq, if_neg (by simp), hmd]
    show (if (!xmpNever || (!md.internal && confFlag)) = true then
        metadataExecuteImage i state
          [toString md.key, cleanupMetadataValue value] false .add
      else (state, [])) = _
    rw [if_pos himp]
  · intro registry kvs p hp
    exact setListPayload_cleaned registry kvs p hp
  · intro registry k value undoOn s hn hv hcv hk
    have heq : dtMetadataSet registry i (some k) value undoOn s
        = metadataExecuteImage i s
            [toString (dt_metadata_get_keyid registry (some k)),
              cleanupMetadataValue value] undoOn .add := by
      have h0 : dtMetadataSet registry i (some k) value undoOn s
          = if dt_metadata_get_keyid registry (some k) = -1 then (s, [])
            else metadataExecuteImage i s
              [toString (dt_metadata_get_keyid registry (some k)),
                cleanupMetadataValue value] undoOn .add := rfl
      rw [h0, if_neg hk]
    rw [heq, hcv]
    exact set_empty_removes i (toString (dt_metadata_get_keyid registry (some k)))
      s hn hv undoOn

/-- C7 witness: cleaning trims the spaces around "Ann", and setting the
known key "3" to a blank value deletes its row. -/
theorem cleanup_before_diff_witness :
    cleanupMetadataValue (some " Ann ") = "Ann" ∧
    lookupVal ((dtMetadataSet [⟨3, "Xmp.dc.a", "a", false, true, false, 0⟩] 7
        (some "Xmp.dc.a") (some "   ") true [("3", "old")]).1) "3" = none := by
  refine ⟨by decide, ?_⟩
  have h := (cleanup_before_diff 7).2.2.2.2.2.2
    [⟨3, "Xmp.dc.a", "a", false, true, false, 0⟩] "Xmp.dc.a" (some "   ") true
    [("3", "old")] (by decide) (by decide) (by decide) (by decide)
  exact h
